import Mathlib

/- Shallow embedding of the SauceDemo Playwright page-object layer
   (src/pages/BasePage.ts, ProductsPage.ts, CartPage, CheckoutOverviewPage.ts
   and src/playwright.config.ts).

   Strings from the TypeScript sources are modelled as Lean `String`s;
   the browser-side effect of a page-object method is modelled as the list
   of commands the method issues to the automation handle, and queries are
   modelled as pure functions of the DOM data they read. -/

/-- Code points of the JavaScript regular-expression whitespace class
`\s` (also the set trimmed by `String.prototype.trim`). -/
def isJsWhitespaceNat (n : Nat) : Bool :=
  n == 9 || n == 10 || n == 11 || n == 12 || n == 13 || n == 32 || n == 160 ||
  n == 5760 || n == 8192 || n == 8193 || n == 8194 || n == 8195 || n == 8196 ||
  n == 8197 || n == 8198 || n == 8199 || n == 8200 || n == 8201 || n == 8202 ||
  n == 8232 || n == 8233 || n == 8239 || n == 8287 || n == 12288 || n == 65279

/-- A character is JavaScript whitespace. -/
def isJsWhitespace (c : Char) : Bool := isJsWhitespaceNat c.toNat

theorem toNat_ofNat_valid (n : Nat) (h : n.isValidChar) :
    (Char.ofNat n).toNat = n := by
  simp only [Char.ofNat, h, dite_true]
  rfl

theorem toLower_idem (c : Char) :
    Char.toLower (Char.toLower c) = Char.toLower c := by
  by_cases h : c.toNat ≥ 65 ∧ c.toNat ≤ 90
  · have hv : (c.toNat + 32).isValidChar := Or.inl (by omega)
    have ht : (Char.ofNat (c.toNat + 32)).toNat = c.toNat + 32 :=
      toNat_ofNat_valid _ hv
    simp only [Char.toLower]
    rw [if_pos h, if_neg]
    rw [ht]
    omega
  · simp only [Char.toLower]
    rw [if_neg h, if_neg h]

theorem toLower_eq_self (c : Char) (h : ¬(c.toNat ≥ 65 ∧ c.toNat ≤ 90)) :
    Char.toLower c = c := by
  simp only [Char.toLower]
  rw [if_neg h]

/-- Models `String.prototype.replace(/\s+/g, '-')` on a character list:
every maximal run of whitespace characters is replaced by one hyphen.
The boolean flag records whether the previous character was part of a
whitespace run already replaced. -/
def collapseWsAux : Bool → List Char → List Char
  | _, [] => []
  | inRun, c :: cs =>
    if isJsWhitespace c then
      if inRun then collapseWsAux true cs
      else '-' :: collapseWsAux true cs
    else c :: collapseWsAux false cs

/-- Models `String.prototype.toLowerCase` (on the ASCII alphabet the
product names are drawn from). -/
def jsToLowerCase (s : String) : String := ⟨s.data.map Char.toLower⟩

/-- Models `.replace(/\s+/g, '-')`. -/
def jsReplaceWsRuns (s : String) : String := ⟨collapseWsAux false s.data⟩

/-- Models `.replace(/[()]/g, '')`. -/
def jsRemoveParens (s : String) : String :=
  ⟨s.data.filter (fun c => !(c == '(' || c == ')'))⟩

/-- Models `.replace(/\./g, '')`. -/
def jsRemovePeriods (s : String) : String :=
  ⟨s.data.filter (fun c => !(c == '.'))⟩

namespace ProductsPage

/-- `ProductsPage.getProductId` (src/pages/ProductsPage.ts lines 46-52):
lowercase, then replace whitespace runs with hyphens, then strip
parentheses, then strip periods. -/
def getProductId (productName : String) : String :=
  jsRemovePeriods (jsRemoveParens (jsReplaceWsRuns (jsToLowerCase productName)))

end ProductsPage

/-- The normalization rule as the spec words it (§3): lowercase the name,
turn every run of whitespace into a single hyphen, and strip parentheses
and periods — written as one left-to-right pass over the characters. -/
def normalizeSpecAux : Bool → List Char → List Char
  | _, [] => []
  | inRun, c :: cs =>
    let d := Char.toLower c
    if isJsWhitespace d then
      if inRun then normalizeSpecAux true cs
      else '-' :: normalizeSpecAux true cs
    else if d == '(' || d == ')' || d == '.' then normalizeSpecAux false cs
    else d :: normalizeSpecAux false cs

/-- The spec-side normalization on strings. -/
def normalizeSpec (s : String) : String := ⟨normalizeSpecAux false s.data⟩

theorem normalize_refines_aux (l : List Char) : ∀ flag,
    normalizeSpecAux flag l =
      ((collapseWsAux flag (l.map Char.toLower)).filter
        (fun c => !(c == '(' || c == ')'))).filter (fun c => !(c == '.')) := by
  induction l with
  | nil => intro flag; rfl
  | cons c cs ih =>
    intro flag
    by_cases hws : isJsWhitespace (Char.toLower c) = true
    · cases flag with
      | true => simp [normalizeSpecAux, collapseWsAux, hws, ih]
      | false => simp [normalizeSpecAux, collapseWsAux, hws, ih, List.filter_cons]
    · by_cases hstrip : (Char.toLower c == '(' || Char.toLower c == ')' ||
        Char.toLower c == '.') = true
      · have hor : (Char.toLower c = '(' ∨ Char.toLower c = ')') ∨ Char.toLower c = '.' := by
          simpa using hstrip
        have hwsl : isJsWhitespace '(' = false := by decide
        have hwsr : isJsWhitespace ')' = false := by decide
        have hwsd : isJsWhitespace '.' = false := by decide
        rcases hor with ⟨h | h⟩ | h <;>
          simp [normalizeSpecAux, collapseWsAux, hws, hstrip, ih, h, hwsl, hwsr, hwsd,
            List.filter_cons]
      · have h1 : (Char.toLower c == '(') = false := by
          simp only [Bool.or_eq_true] at hstrip; push_neg at hstrip
          simpa using hstrip.1.1
        have h2 : (Char.toLower c == ')') = false := by
          simp only [Bool.or_eq_true] at hstrip; push_neg at hstrip
          simpa using hstrip.1.2
        have h3 : (Char.toLower c == '.') = false := by
          simp only [Bool.or_eq_true] at hstrip; push_neg at hstrip
          simpa using hstrip.2
        simp [normalizeSpecAux, collapseWsAux, hws, hstrip, ih, h1, h2, h3,
          List.filter_cons]

theorem getProductId_eq_normalizeSpec (s : String) :
    ProductsPage.getProductId s = normalizeSpec s := by
  show String.mk _ = String.mk _
  simp [ProductsPage.getProductId, jsRemovePeriods, jsRemoveParens,
    jsReplaceWsRuns, jsToLowerCase, normalizeSpec, normalize_refines_aux]

/-- Claim C1: `ProductsPage.getProductId` lowercases the display name,
replaces every run of whitespace with a hyphen, and strips parentheses
and periods. -/
theorem claim_C1_getProductId_normalizes (name : String) :
    ProductsPage.getProductId name = normalizeSpec name :=
  getProductId_eq_normalizeSpec name

theorem mem_collapseWsAux {c : Char} :
    ∀ (flag : Bool) (l : List Char), c ∈ collapseWsAux flag l →
      c = '-' ∨ (c ∈ l ∧ isJsWhitespace c = false) := by
  intro flag l
  induction l generalizing flag with
  | nil => intro h; simp [collapseWsAux] at h
  | cons a l ih =>
    intro h
    simp only [collapseWsAux] at h
    by_cases hws : isJsWhitespace a = true
    · rw [if_pos hws] at h
      cases flag with
      | true =>
        rcases ih true h with h' | h'
        · exact Or.inl h'
        · exact Or.inr ⟨List.mem_cons_of_mem _ h'.1, h'.2⟩
      | false =>
        rcases List.mem_cons.mp h with h' | h'
        · exact Or.inl h'
        · rcases ih true h' with h'' | h''
          · exact Or.inl h''
          · exact Or.inr ⟨List.mem_cons_of_mem _ h''.1, h''.2⟩
    · rw [if_neg hws] at h
      rcases List.mem_cons.mp h with h' | h'
      · subst h'
        exact Or.inr ⟨List.mem_cons_self _ _, by simpa using hws⟩
      · rcases ih false h' with h'' | h''
        · exact Or.inl h''
        · exact Or.inr ⟨List.mem_cons_of_mem _ h''.1, h''.2⟩

theorem collapseWsAux_eq_self (l : List Char)
    (h : ∀ c ∈ l, isJsWhitespace c = false) : collapseWsAux false l = l := by
  induction l with
  | nil => rfl
  | cons a l ih =>
    have ha : isJsWhitespace a = false := h a (List.mem_cons_self _ _)
    simp only [collapseWsAux, ha]
    simp only [Bool.false_eq_true, if_false]
    rw [ih (fun c hc => h c (List.mem_cons_of_mem _ hc))]

theorem map_toLower_eq_self (l : List Char) (h : ∀ c ∈ l, Char.toLower c = c) :
    l.map Char.toLower = l := by
  rw [List.map_congr_left h]
  exact List.map_id' l

theorem mk_data (s : String) : String.mk s.data = s := rfl

theorem getProductId_chars (s : String) :
    ∀ c ∈ (ProductsPage.getProductId s).data,
      Char.toLower c = c ∧ isJsWhitespace c = false ∧
      (!(c == '(' || c == ')')) = true ∧ (!(c == '.')) = true := by
  intro c hc
  have hcA : c ∈ ((collapseWsAux false ((s.data.map Char.toLower))).filter
      (fun c => !(c == '(' || c == ')'))).filter (fun c => !(c == '.')) := hc
  rw [List.mem_filter] at hcA
  obtain ⟨hcB, hp2⟩ := hcA
  rw [List.mem_filter] at hcB
  obtain ⟨hcC, hp1⟩ := hcB
  rcases mem_collapseWsAux false _ hcC with h | ⟨hmem, hws⟩
  · subst h
    refine ⟨by decide, by decide, hp1, hp2⟩
  · rcases List.mem_map.mp hmem with ⟨a, _, ha⟩
    subst ha
    exact ⟨toLower_idem a, hws, hp1, hp2⟩

theorem getProductId_idem (s : String) :
    ProductsPage.getProductId (ProductsPage.getProductId s) =
      ProductsPage.getProductId s := by
  have hch := getProductId_chars s
  have h1 : jsToLowerCase (ProductsPage.getProductId s) = ProductsPage.getProductId s := by
    rw [jsToLowerCase, map_toLower_eq_self _ (fun c hc => (hch c hc).1), mk_data]
  have h2 : jsReplaceWsRuns (ProductsPage.getProductId s) = ProductsPage.getProductId s := by
    rw [jsReplaceWsRuns, collapseWsAux_eq_self _ (fun c hc => (hch c hc).2.1), mk_data]
  have h3 : jsRemoveParens (ProductsPage.getProductId s) = ProductsPage.getProductId s := by
    rw [jsRemoveParens, List.filter_eq_self.mpr (fun c hc => (hch c hc).2.2.1), mk_data]
  have h4 : jsRemovePeriods (ProductsPage.getProductId s) = ProductsPage.getProductId s := by
    rw [jsRemovePeriods, List.filter_eq_self.mpr (fun c hc => (hch c hc).2.2.2), mk_data]
  show jsRemovePeriods (jsRemoveParens (jsReplaceWsRuns (jsToLowerCase _))) = _
  rw [h1, h2, h3, h4]

/-- Modelled from the spec: the fixed known product set of the target
application, held in the repository's fixture file
(fixtures/test-data.json, products name→displayName), which is not under
src/; the display names are the six products the specifications exercise. -/
def knownProductNames : List String :=
  ["Sauce Labs Backpack", "Sauce Labs Bike Light", "Sauce Labs Bolt T-Shirt",
   "Sauce Labs Fleece Jacket", "Sauce Labs Onesie",
   "Test.allTheThings() T-Shirt (Red)"]

/-- Claim C2: `ProductsPage.getProductId` is idempotent, and it is
injective on the fixed known product set: no two distinct product
display names in that set normalize to the same identifier. -/
theorem claim_C2_getProductId_idem_and_injective :
    (∀ s, ProductsPage.getProductId (ProductsPage.getProductId s) =
      ProductsPage.getProductId s) ∧
    List.Pairwise (fun a b => ProductsPage.getProductId a ≠ ProductsPage.getProductId b)
      knownProductNames :=
  ⟨getProductId_idem, by decide⟩

/-- Trailing-whitespace removal used by the JS trim model. -/
def dropTrailingWs (l : List Char) : List Char :=
  (l.reverse.dropWhile isJsWhitespace).reverse

/-- Models `String.prototype.trim`: strips leading and trailing
JavaScript whitespace. -/
def jsTrim (s : String) : String :=
  ⟨dropTrailingWs (s.data.dropWhile isJsWhitespace)⟩

/-- One command issued to the automation handle (the Playwright `Page`). -/
inductive EngineCmd where
  | nav (url : String)
  | click (selector : String)
  | fill (selector : String) (text : String)
  deriving DecidableEq

namespace BasePage

/-- The base URL fixed in the `BasePage` constructor
(src/pages/BasePage.ts line 13). -/
def baseURL : String := "https://www.saucedemo.com"

/-- `BasePage.goto` (lines 20-22): navigates the handle to the
concatenation of the base URL and the given path. -/
def goto (path : String) : List EngineCmd := [.nav (baseURL ++ path)]

/-- `BasePage.click` (lines 37-39). -/
def click (selector : String) : List EngineCmd := [.click selector]

/-- `BasePage.fill` (lines 46-48). -/
def fill (selector text : String) : List EngineCmd := [.fill selector text]

/-- Outcome of the automation engine's visibility check for a selector:
either a boolean answer or a raised error. -/
inductive CheckResult where
  | ok (visible : Bool)
  | err (msg : String)
  deriving DecidableEq

/-- `BasePage.isVisible` (lines 66-72): returns the engine's boolean when
the check succeeds and catches any raised error, returning false. -/
def isVisible (r : CheckResult) : Bool :=
  match r with
  | .ok b => b
  | .err _ => false

/-- `BasePage.getText` (lines 55-59): the element's text content trimmed,
with `text?.trim() || ''` collapsing null and all-whitespace content to
the empty string. -/
def getText (textContent : Option String) : String :=
  match textContent with
  | none => ""
  | some t => if jsTrim t = "" then "" else jsTrim t

end BasePage

namespace ProductsPage

/-- `ProductsPage.getAddToCartButtonSelector` (lines 26-29). -/
def getAddToCartButtonSelector (productName : String) : String :=
  "[data-test=\"add-to-cart-" ++ getProductId productName ++ "\"]"

/-- `ProductsPage.getRemoveButtonSelector` (lines 36-39). -/
def getRemoveButtonSelector (productName : String) : String :=
  "[data-test=\"remove-" ++ getProductId productName ++ "\"]"

/-- `ProductsPage.addProductToCart` (lines 58-61). -/
def addProductToCart (productName : String) : List EngineCmd :=
  BasePage.click (getAddToCartButtonSelector productName)

/-- `ProductsPage.removeProductFromCart` (lines 67-70). -/
def removeProductFromCart (productName : String) : List EngineCmd :=
  BasePage.click (getRemoveButtonSelector productName)

end ProductsPage

/-- Claim C3: `addProductToCart` clicks exactly the selector obtained by
interpolating the normalized product identifier into
`[data-test="add-to-cart-<id>"]`, and `removeProductFromCart` clicks
exactly `[data-test="remove-<id>"]`. -/
theorem claim_C3_cart_button_selectors (name : String) :
    ProductsPage.addProductToCart name =
      [EngineCmd.click ("[data-test=\"add-to-cart-" ++ normalizeSpec name ++ "\"]")] ∧
    ProductsPage.removeProductFromCart name =
      [EngineCmd.click ("[data-test=\"remove-" ++ normalizeSpec name ++ "\"]")] := by
  constructor <;>
    simp [ProductsPage.addProductToCart, ProductsPage.removeProductFromCart,
      ProductsPage.getAddToCartButtonSelector, ProductsPage.getRemoveButtonSelector,
      BasePage.click, getProductId_eq_normalizeSpec]

/-- Claim C4: `BasePage.isVisible` returns the underlying check's result
when it succeeds, and returns false instead of propagating when the
check raises any error. -/
theorem claim_C4_isVisible_swallows_errors (r : BasePage.CheckResult) :
    (∀ b, r = .ok b → BasePage.isVisible r = b) ∧
    (∀ m, r = .err m → BasePage.isVisible r = false) := by
  constructor
  · intro b h; subst h; rfl
  · intro m h; subst h; rfl

/-- Witness for claim C4 at concrete check outcomes. -/
theorem claim_C4_witness :
    BasePage.isVisible (.ok true) = true ∧
    BasePage.isVisible (.err "engine fault") = false :=
  ⟨(claim_C4_isVisible_swallows_errors (.ok true)).1 true rfl,
   (claim_C4_isVisible_swallows_errors (.err "engine fault")).2 "engine fault" rfl⟩

/-- Claim C7: `BasePage.goto` navigates the handle to the string
concatenation of the base URL and the relative path. -/
theorem claim_C7_goto_concatenates (path : String) :
    BasePage.goto path = [EngineCmd.nav ("https://www.saucedemo.com" ++ path)] := rfl

namespace CartPage

/-- `CartPage.getRemoveButtonSelector` (CartPage source lines 126-129):
XPath locating the remove button of the row whose name node carries the
product display name. -/
def getRemoveButtonSelector (productName : String) : String :=
  "//div[@class=\x27cart_item\x27]//div[@class=\x27inventory_item_name\x27 and text()=\x27" ++
    productName ++
    "\x27]/ancestor::div[@class=\x27cart_item\x27]//button[contains(@id, \x27remove\x27)]"

/-- `CartPage.removeItem` (lines 162-165). -/
def removeItem (productName : String) : List EngineCmd :=
  BasePage.click (getRemoveButtonSelector productName)

end CartPage

/-- XPath step: any descendant element of the given tag whose class
attribute equals `cls`. -/
def xpathDescendantWithClass (tag cls : String) : String :=
  "//" ++ tag ++ "[@class=\x27" ++ cls ++ "\x27]"

/-- XPath step: any descendant element of the given tag whose class
attribute equals `cls` and whose text exactly equals `txt`. -/
def xpathDescendantWithClassAndText (tag cls txt : String) : String :=
  "//" ++ tag ++ "[@class=\x27" ++ cls ++ "\x27 and text()=\x27" ++ txt ++ "\x27]"

/-- XPath step: ascend to an ancestor element of the given tag whose
class attribute equals `cls`. -/
def xpathAncestorWithClass (tag cls : String) : String :=
  "/ancestor::" ++ tag ++ "[@class=\x27" ++ cls ++ "\x27]"

/-- XPath step: any descendant element of the given tag whose id
attribute contains `sub`. -/
def xpathDescendantWithIdContaining (tag sub : String) : String :=
  "//" ++ tag ++ "[contains(@id, \x27" ++ sub ++ "\x27)]"

/-- The structural path query the spec describes (§4.2): find a
cart-item name node by exact text match on the display name, ascend to
its ancestor cart-item row, and descend to a button whose id contains
"remove". -/
def removeButtonStructuralQuery (productName : String) : String :=
  xpathDescendantWithClass "div" "cart_item" ++
    xpathDescendantWithClassAndText "div" "inventory_item_name" productName ++
    xpathAncestorWithClass "div" "cart_item" ++
    xpathDescendantWithIdContaining "button" "remove"

/-- Claim C6: `CartPage.removeItem` clicks the structural path query
that matches a name node by exact display-name text (not the normalized
identifier), ascends to its ancestor cart-item row, and descends to a
button whose id contains "remove". -/
theorem claim_C6_removeItem_structural_query (name : String) :
    CartPage.removeItem name = [EngineCmd.click (removeButtonStructuralQuery name)] := by
  apply congrArg (fun sel => [EngineCmd.click sel])
  apply String.ext
  simp only [CartPage.getRemoveButtonSelector, removeButtonStructuralQuery,
    xpathDescendantWithClass, xpathDescendantWithClassAndText,
    xpathAncestorWithClass, xpathDescendantWithIdContaining,
    String.data_append, List.append_assoc]
  rfl

/-- Models `String.prototype.replace('$', '')` on the character list: a
string pattern replaces only the first occurrence. -/
def removeFirstDollarL : List Char → List Char
  | [] => []
  | c :: cs => if c == '$' then cs else c :: removeFirstDollarL cs

/-- Models `priceText.replace('$', '')`. -/
def jsRemoveFirstDollar (s : String) : String := ⟨removeFirstDollarL s.data⟩

/-- Value of a decimal digit run. -/
def digitsToNat (ds : List Char) : Nat :=
  ds.foldl (fun n c => 10 * n + (c.toNat - 48)) 0

/-- JS decimal digit (regex `\\d`, code points 48-57). -/
def isDigitChar (c : Char) : Bool := decide (48 ≤ c.toNat ∧ c.toNat ≤ 57)

/-- Splits off the maximal leading run of decimal digits. -/
def takeDigits : List Char → List Char × List Char
  | [] => ([], [])
  | c :: cs =>
    if isDigitChar c then
      let p := takeDigits cs
      (c :: p.1, p.2)
    else ([], c :: cs)

/-- Models the numeric body of JavaScript `parseFloat`: the longest
leading `digits[.digits]` or `.digits` prefix; `none` models NaN.
(Exponent forms never occur in the price texts this suite reads.) -/
def parseFloatCore (l : List Char) : Option ℚ :=
  match takeDigits l with
  | ([], '.' :: r2) =>
    match takeDigits r2 with
    | ([], _) => none
    | (fp, _) => some ((digitsToNat fp : ℚ) / 10 ^ fp.length)
  | ([], _) => none
  | (ip, '.' :: r2) =>
    some ((digitsToNat ip : ℚ) + (digitsToNat (takeDigits r2).1 : ℚ) /
      10 ^ (takeDigits r2).1.length)
  | (ip, _) => some ((digitsToNat ip : ℚ))

/-- Sign handling of `parseFloat`: an optional leading sign before the
numeric body. -/
def parseFloatSigned : List Char → Option ℚ
  | '-' :: rest => (parseFloatCore rest).map (fun q => -q)
  | '+' :: rest => parseFloatCore rest
  | l => parseFloatCore l

/-- Models `parseFloat`: skip leading whitespace, optional sign, then
the longest numeric prefix; `none` models NaN. -/
def jsParseFloat (s : String) : Option ℚ :=
  parseFloatSigned (s.data.dropWhile isJsWhitespace)

namespace ProductsPage

/-- `ProductsPage.getProductNames` (lines 116-129): walk the name
elements in DOM order; for each element whose textContent is truthy,
push the trimmed text. -/
def getProductNames (texts : List (Option String)) : List String :=
  match texts with
  | [] => []
  | none :: rest => getProductNames rest
  | some s :: rest =>
    if s = "" then getProductNames rest else jsTrim s :: getProductNames rest

/-- `ProductsPage.getProductPrices` (lines 135-150): walk the price
elements in DOM order; for each truthy text, remove the dollar sign and
parse the number (`none` models a pushed NaN). -/
def getProductPrices (texts : List (Option String)) : List (Option ℚ) :=
  match texts with
  | [] => []
  | none :: rest => getProductPrices rest
  | some s :: rest =>
    if s = "" then getProductPrices rest
    else jsParseFloat (jsRemoveFirstDollar s) :: getProductPrices rest

end ProductsPage

namespace CartPage

/-- `CartPage.getCartItemNames` (lines 144-156): walk the cart item name
elements in DOM order; push each truthy textContent trimmed. -/
def getCartItemNames (texts : List (Option String)) : List String :=
  match texts with
  | [] => []
  | none :: rest => getCartItemNames rest
  | some s :: rest =>
    if s = "" then getCartItemNames rest else jsTrim s :: getCartItemNames rest

end CartPage

theorem getProductNames_eq (texts : List (Option String)) :
    ProductsPage.getProductNames texts =
      ((texts.filterMap id).filter (fun s => !(s == ""))).map jsTrim := by
  induction texts with
  | nil => rfl
  | cons t rest ih =>
    cases t with
    | none => simpa [ProductsPage.getProductNames] using ih
    | some s =>
      by_cases h : s = ""
      · subst h
        simpa [ProductsPage.getProductNames, List.filterMap_cons, List.filter_cons] using ih
      · simp [ProductsPage.getProductNames, h, ih, List.filterMap_cons, List.filter_cons]

theorem getCartItemNames_eq (texts : List (Option String)) :
    CartPage.getCartItemNames texts =
      ((texts.filterMap id).filter (fun s => !(s == ""))).map jsTrim := by
  induction texts with
  | nil => rfl
  | cons t rest ih =>
    cases t with
    | none => simpa [CartPage.getCartItemNames] using ih
    | some s =>
      by_cases h : s = ""
      · subst h
        simpa [CartPage.getCartItemNames, List.filterMap_cons, List.filter_cons] using ih
      · simp [CartPage.getCartItemNames, h, ih, List.filterMap_cons, List.filter_cons]

theorem getProductPrices_eq (texts : List (Option String)) :
    ProductsPage.getProductPrices texts =
      ((texts.filterMap id).filter (fun s => !(s == ""))).map
        (fun s => jsParseFloat (jsRemoveFirstDollar s)) := by
  induction texts with
  | nil => rfl
  | cons t rest ih =>
    cases t with
    | none => simpa [ProductsPage.getProductPrices] using ih
    | some s =>
      by_cases h : s = ""
      · subst h
        simpa [ProductsPage.getProductPrices, List.filterMap_cons, List.filter_cons] using ih
      · simp [ProductsPage.getProductPrices, h, ih, List.filterMap_cons, List.filter_cons]

/-- Claim C5: `getProductNames`, `getProductPrices` and
`getCartItemNames` each return the texts of the matching elements in DOM
order — an order-preserving filter of the element sequence, never a
re-sort — with names trimmed and each price parsed from its text after
the leading dollar sign is removed. -/
theorem claim_C5_texts_in_dom_order (texts : List (Option String)) :
    ProductsPage.getProductNames texts =
      ((texts.filterMap id).filter (fun s => !(s == ""))).map jsTrim ∧
    CartPage.getCartItemNames texts =
      ((texts.filterMap id).filter (fun s => !(s == ""))).map jsTrim ∧
    ProductsPage.getProductPrices texts =
      ((texts.filterMap id).filter (fun s => !(s == ""))).map
        (fun s => jsParseFloat (jsRemoveFirstDollar s)) ∧
    (∀ s : String, jsRemoveFirstDollar ("$" ++ s) = s) :=
  ⟨getProductNames_eq texts, getCartItemNames_eq texts, getProductPrices_eq texts,
   fun s => by
    show String.mk (removeFirstDollarL ('$' :: s.data)) = s
    simp [removeFirstDollarL, mk_data]⟩

/-- Truthiness of a JavaScript environment variable: absent and empty
strings are falsy. -/
def jsEnvTruthy : Option String → Bool
  | none => false
  | some s => !(s == "")

/-- The options record produced by src/playwright.config.ts, as a
function of the CI environment variable. -/
structure PlaywrightConfig where
  testDir : String
  fullyParallel : Bool
  forbidOnly : Bool
  retries : Nat
  workers : Nat
  baseURL : String
  actionTimeout : Nat
  navigationTimeout : Nat
  timeout : Nat
  expectTimeout : Nat
  deriving DecidableEq

/-- `defineConfig` call in src/playwright.config.ts (lines 16-70);
timeouts are in milliseconds as in the source. -/
def defineConfig (envCI : Option String) : PlaywrightConfig :=
  { testDir := "./tests"
    fullyParallel := false
    forbidOnly := jsEnvTruthy envCI
    retries := if jsEnvTruthy envCI then 2 else 0
    workers := 1
    baseURL := "https://www.saucedemo.com"
    actionTimeout := 10000
    navigationTimeout := 30000
    timeout := 120000
    expectTimeout := 5000 }

/-- Claim C8: the configuration sets a 10 s action timeout, 30 s
navigation timeout, 120 s per-scenario timeout, 5 s assertion timeout,
0 retries when the CI flag is absent and 2 when it is set, and a single
worker. -/
theorem claim_C8_config_constants (envCI : Option String) (ci : String)
    (hci : ci ≠ "") :
    (defineConfig envCI).actionTimeout = 10 * 1000 ∧
    (defineConfig envCI).navigationTimeout = 30 * 1000 ∧
    (defineConfig envCI).timeout = 120 * 1000 ∧
    (defineConfig envCI).expectTimeout = 5 * 1000 ∧
    (defineConfig envCI).workers = 1 ∧
    (defineConfig none).retries = 0 ∧
    (defineConfig (some ci)).retries = 2 := by
  refine ⟨rfl, rfl, rfl, rfl, rfl, rfl, ?_⟩
  have h : jsEnvTruthy (some ci) = true := by
    simp [jsEnvTruthy, hci]
  simp [defineConfig, h]

/-- Witness for claim C8 with the CI flag set to "true". -/
theorem claim_C8_witness :
    (defineConfig (some "true")).actionTimeout = 10 * 1000 ∧
    (defineConfig (some "true")).navigationTimeout = 30 * 1000 ∧
    (defineConfig (some "true")).timeout = 120 * 1000 ∧
    (defineConfig (some "true")).expectTimeout = 5 * 1000 ∧
    (defineConfig (some "true")).workers = 1 ∧
    (defineConfig none).retries = 0 ∧
    (defineConfig (some "true")).retries = 2 :=
  claim_C8_config_constants (some "true") "true" (by decide)

/-- Optional sign followed by the maximal run of decimal digits, read
from the first character; `none` when no digit follows (NaN). This is
the numeric core of `parseInt(text, 10)` and also the reading of "the
text begins with a parseable decimal integer". -/
def signedIntAt (l : List Char) : Option Int :=
  match l with
  | '-' :: rest =>
    match takeDigits rest with
    | ([], _) => none
    | (ds, _) => some (-(digitsToNat ds : Int))
  | '+' :: rest =>
    match takeDigits rest with
    | ([], _) => none
    | (ds, _) => some ((digitsToNat ds : Int))
  | l' =>
    match takeDigits l' with
    | ([], _) => none
    | (ds, _) => some ((digitsToNat ds : Int))

/-- Models `parseInt(text, 10)`: skip leading whitespace, then the
signed digit run; `none` models NaN. -/
def jsParseInt10 (s : String) : Option Int :=
  signedIntAt (s.data.dropWhile isJsWhitespace)

/-- The text begins (at its very first character) with a parseable
decimal integer of the given value. -/
def beginsWithInt (s : String) : Option Int := signedIntAt s.data

/-- Models `x || 0` applied to a `parseInt` result: NaN becomes 0. -/
def orZero : Option Int → Int
  | none => 0
  | some n => n

namespace ProductsPage

/-- `ProductsPage.getCartBadgeCount` (lines 76-83): 0 when the badge is
not visible, otherwise `parseInt(text, 10) || 0` of the badge text. -/
def getCartBadgeCount (badgeCheck : BasePage.CheckResult)
    (badgeText : Option String) : Int :=
  if !(BasePage.isVisible badgeCheck) then 0
  else orZero (jsParseInt10 (BasePage.getText badgeText))

end ProductsPage

namespace CartPage

/-- `CartPage.getCartItemCount` (lines 195-204): 0 when the badge is not
visible, otherwise `parseInt(badgeText, 10) || 0`. -/
def getCartItemCount (badgeCheck : BasePage.CheckResult)
    (badgeText : Option String) : Int :=
  if !(BasePage.isVisible badgeCheck) then 0
  else orZero (jsParseInt10 (BasePage.getText badgeText))

end CartPage

theorem dropWhile_suffix_exists (p : Char → Bool) :
    ∀ l : List Char, ∃ t, t ++ l.dropWhile p = l := by
  intro l
  induction l with
  | nil => exact ⟨[], rfl⟩
  | cons a l ih =>
    by_cases h : p a = true
    · obtain ⟨t, ht⟩ := ih
      exact ⟨a :: t, by simp [List.dropWhile_cons, h, ht]⟩
    · exact ⟨[], by simp [List.dropWhile_cons, h]⟩

theorem head_not_of_dropWhile (p : Char → Bool) :
    ∀ (l : List Char) (c : Char), (l.dropWhile p).head? = some c → p c = false := by
  intro l
  induction l with
  | nil => intro c h; simp at h
  | cons a l ih =>
    intro c h
    by_cases ha : p a = true
    · rw [List.dropWhile_cons, if_pos ha] at h
      exact ih c h
    · rw [List.dropWhile_cons, if_neg ha] at h
      simp at h
      subst h
      simpa using ha

theorem dropWhile_eq_self_of_head (p : Char → Bool) (l : List Char)
    (h : ∀ c, l.head? = some c → p c = false) : l.dropWhile p = l := by
  cases l with
  | nil => rfl
  | cons a l =>
    have ha : p a = false := h a rfl
    simp [List.dropWhile_cons, ha]

theorem getText_no_leading_ws (t : Option String) :
    (BasePage.getText t).data.dropWhile isJsWhitespace = (BasePage.getText t).data := by
  cases t with
  | none => rfl
  | some u =>
    have hgt : BasePage.getText (some u) = if jsTrim u = "" then "" else jsTrim u := rfl
    by_cases h : jsTrim u = ""
    · rw [hgt, if_pos h]; rfl
    · rw [hgt, if_neg h]
      show (dropTrailingWs (u.data.dropWhile isJsWhitespace)).dropWhile isJsWhitespace =
        dropTrailingWs (u.data.dropWhile isJsWhitespace)
      set m := u.data.dropWhile isJsWhitespace with hm
      apply dropWhile_eq_self_of_head
      intro c hc
      obtain ⟨t2, ht2⟩ := dropWhile_suffix_exists isJsWhitespace m.reverse
      have hsplit : m = dropTrailingWs m ++ t2.reverse := by
        have hrev := congrArg List.reverse ht2
        simpa [dropTrailingWs, List.reverse_append] using hrev.symm
      have hmhead : m.head? = some c := by
        rcases hd : dropTrailingWs m with _ | ⟨a, rest⟩
        · rw [hd] at hc; simp at hc
        · rw [hd] at hc
          simp at hc
          subst hc
          rw [hsplit, hd]
          rfl
      exact head_not_of_dropWhile isJsWhitespace u.data c hmhead

/-- Claim C9: both badge-count queries return 0 when the badge is not
visible or when its (trimmed) text does not begin with a parseable
decimal integer, and otherwise return the integer parsed from the start
of the badge text. -/
theorem claim_C9_badge_count (check : BasePage.CheckResult) (text : Option String) :
    ProductsPage.getCartBadgeCount check text = CartPage.getCartItemCount check text ∧
    (BasePage.isVisible check = false →
      ProductsPage.getCartBadgeCount check text = 0) ∧
    (BasePage.isVisible check = true →
      beginsWithInt (BasePage.getText text) = none →
      ProductsPage.getCartBadgeCount check text = 0) ∧
    (∀ n : Int, BasePage.isVisible check = true →
      beginsWithInt (BasePage.getText text) = some n →
      ProductsPage.getCartBadgeCount check text = n) := by
  have hkey : jsParseInt10 (BasePage.getText text) = beginsWithInt (BasePage.getText text) := by
    unfold jsParseInt10 beginsWithInt
    rw [getText_no_leading_ws]
  refine ⟨rfl, ?_, ?_, ?_⟩
  · intro h
    simp [ProductsPage.getCartBadgeCount, h]
  · intro hv hp
    simp [ProductsPage.getCartBadgeCount, hv, hkey, hp, orZero]
  · intro n hv hp
    simp [ProductsPage.getCartBadgeCount, hv, hkey, hp, orZero]

/-- Witness for claim C9: visible badge with text "3". -/
theorem claim_C9_witness :
    BasePage.isVisible (.ok true) = true ∧
    beginsWithInt (BasePage.getText (some "3")) = some 3 ∧
    ProductsPage.getCartBadgeCount (.ok true) (some "3") = 3 :=
  ⟨rfl, by decide,
   (claim_C9_badge_count (.ok true) (some "3")).2.2.2 3 rfl (by decide)⟩

/-- Matches the regex `\$(\d+\.\d+)` anchored at the head of the list:
on success returns the integer digits, the fraction digits (both read
greedily) and the remaining characters. -/
def matchDollarAt (l : List Char) : Option (List Char × List Char × List Char) :=
  match l with
  | [] => none
  | c :: rest =>
    if c == '$' then
      let p := takeDigits rest
      if p.1.isEmpty then none
      else if p.2.head? == some '.' then
        let q := takeDigits p.2.tail
        if q.1.isEmpty then none else some (p.1, q.1, q.2)
      else none
    else none

/-- The leftmost `\$(\d+\.\d+)` match (the scan performed by
`String.prototype.match` with an unanchored pattern): try every start
position from the left. -/
def scanDollar : List Char → Option (List Char × List Char × List Char)
  | [] => none
  | c :: cs =>
    match matchDollarAt (c :: cs) with
    | some r => some r
    | none => scanDollar cs

/-- A character list is exactly a dollar amount `$<digits>.<digits>`:
a dollar sign, one or more digits, a period, one or more digits, and
nothing else. -/
def isDollarAmount (w : List Char) : Bool :=
  match w with
  | [] => false
  | c :: rest =>
    c == '$' &&
      (let p := takeDigits rest
       !p.1.isEmpty && p.2.head? == some '.' &&
         (let q := takeDigits p.2.tail
          !q.1.isEmpty && q.2.isEmpty))

/-- `w` occurs contiguously inside `s`. -/
def IsSegmentOf (w s : List Char) : Prop := ∃ pre post, s = pre ++ w ++ post

namespace CheckoutOverviewPage

/-- `CheckoutOverviewPage.getSubtotal` (lines 48-53): parse the captured
group of the first `\$(\d+\.\d+)` match in the summary label text; the
number 0 when there is no match. -/
def getSubtotal (labelText : Option String) : Option ℚ :=
  match scanDollar (BasePage.getText labelText).data with
  | some (d1, d2, _) => jsParseFloat ⟨d1 ++ '.' :: d2⟩
  | none => some 0

/-- `CheckoutOverviewPage.getTax` (lines 59-64): same extraction on the
tax label. -/
def getTax (labelText : Option String) : Option ℚ :=
  match scanDollar (BasePage.getText labelText).data with
  | some (d1, d2, _) => jsParseFloat ⟨d1 ++ '.' :: d2⟩
  | none => some 0

/-- `CheckoutOverviewPage.getTotal` (lines 70-75): same extraction on
the total label. -/
def getTotal (labelText : Option String) : Option ℚ :=
  match scanDollar (BasePage.getText labelText).data with
  | some (d1, d2, _) => jsParseFloat ⟨d1 ++ '.' :: d2⟩
  | none => some 0

end CheckoutOverviewPage

theorem takeDigits_append_eq (l : List Char) :
    l = (takeDigits l).1 ++ (takeDigits l).2 := by
  induction l with
  | nil => rfl
  | cons a l ih =>
    by_cases h : isDigitChar a = true
    · simp only [takeDigits, h, if_true]
      rw [List.cons_append, ← ih]
    · simp [takeDigits, h]

theorem takeDigits_all_digits (l : List Char) :
    ∀ c ∈ (takeDigits l).1, isDigitChar c = true := by
  induction l with
  | nil => intro c hc; simp [takeDigits] at hc
  | cons a l ih =>
    intro c hc
    by_cases h : isDigitChar a = true
    · simp only [takeDigits, h, if_true] at hc
      rcases List.mem_cons.mp hc with rfl | hc'
      · exact h
      · exact ih c hc'
    · simp [takeDigits, h] at hc

theorem takeDigits_rest_head (l : List Char) :
    ∀ c, (takeDigits l).2.head? = some c → isDigitChar c = false := by
  induction l with
  | nil => intro c hc; simp [takeDigits] at hc
  | cons a l ih =>
    intro c hc
    by_cases h : isDigitChar a = true
    · simp only [takeDigits, h, if_true] at hc
      exact ih c hc
    · simp only [takeDigits, h, if_false] at hc
      simp at hc
      subst hc
      simpa using h

theorem takeDigits_of_all_digits (d r : List Char)
    (hd : ∀ c ∈ d, isDigitChar c = true) :
    takeDigits (d ++ r) = (d ++ (takeDigits r).1, (takeDigits r).2) := by
  induction d with
  | nil => simp [takeDigits]
  | cons a d ih =>
    have ha := hd a (List.mem_cons_self _ _)
    have ih' := ih (fun c hc => hd c (List.mem_cons_of_mem _ hc))
    show takeDigits (a :: (d ++ r)) = ((a :: d) ++ (takeDigits r).1, (takeDigits r).2)
    simp only [takeDigits, ha, if_true]
    rw [ih']
    simp

theorem takeDigits_of_none (r : List Char)
    (h : ∀ c, r.head? = some c → isDigitChar c = false) :
    takeDigits r = ([], r) := by
  cases r with
  | nil => rfl
  | cons a l => simp [takeDigits, h a rfl]

theorem takeDigits_exact (d r : List Char)
    (hd : ∀ c ∈ d, isDigitChar c = true)
    (hr : ∀ c, r.head? = some c → isDigitChar c = false) :
    takeDigits (d ++ r) = (d, r) := by
  rw [takeDigits_of_all_digits d r hd, takeDigits_of_none r hr]
  simp

theorem isDigitChar_not_ws (c : Char) (h : isDigitChar c = true) :
    isJsWhitespace c = false := by
  have hb : 48 ≤ c.toNat ∧ c.toNat ≤ 57 := of_decide_eq_true h
  simp only [isJsWhitespace, isJsWhitespaceNat, Bool.or_eq_false_iff, beq_eq_false_iff_ne,
    ne_eq]
  omega

theorem isDollarAmount_iff (w : List Char) :
    isDollarAmount w = true ↔
      ∃ d1 d2, w = '$' :: (d1 ++ '.' :: d2) ∧ d1 ≠ [] ∧ d2 ≠ [] ∧
        (∀ c ∈ d1, isDigitChar c = true) ∧ (∀ c ∈ d2, isDigitChar c = true) := by
  constructor
  · intro h
    cases w with
    | nil => simp [isDollarAmount] at h
    | cons c rest =>
      simp only [isDollarAmount, Bool.and_eq_true, beq_iff_eq] at h
      obtain ⟨hc, ⟨hd1ne, hhead⟩, hq⟩ := h
      subst hc
      rcases hp : takeDigits rest with ⟨d1, r1⟩
      rw [hp] at hd1ne hhead hq
      dsimp only at hd1ne hhead hq
      cases r1 with
      | nil => simp at hhead
      | cons d r2 =>
        have hd : d = '.' := by simpa using hhead
        subst hd
        rw [List.tail_cons] at hq
        rcases hq' : takeDigits r2 with ⟨d2, r3⟩
        rw [hq'] at hq
        dsimp only at hq
        obtain ⟨hd2ne, hr3⟩ := hq
        have hrest : rest = d1 ++ '.' :: r2 := by
          have := takeDigits_append_eq rest
          rw [hp] at this
          exact this
        have hr2 : r2 = d2 ++ r3 := by
          have := takeDigits_append_eq r2
          rw [hq'] at this
          exact this
        have hr3e : r3 = [] := by
          cases r3 with
          | nil => rfl
          | cons x xs => simp [List.isEmpty] at hr3
        refine ⟨d1, d2, ?_, ?_, ?_, ?_, ?_⟩
        · rw [hrest, hr2, hr3e, List.append_nil]
        · intro he; rw [he] at hd1ne; simp at hd1ne
        · intro he; rw [he] at hd2ne; simp at hd2ne
        · intro c hc
          have := takeDigits_all_digits rest
          rw [hp] at this
          exact this c hc
        · intro c hc
          have := takeDigits_all_digits r2
          rw [hq'] at this
          exact this c hc
  · rintro ⟨d1, d2, rfl, h1, h2, hd1, hd2⟩
    have hdot : ∀ c, ('.' :: d2).head? = some c → isDigitChar c = false := by
      intro c hc
      simp at hc
      subst hc
      decide
    have htd : takeDigits (d1 ++ '.' :: d2) = (d1, '.' :: d2) :=
      takeDigits_exact d1 ('.' :: d2) hd1 hdot
    have htd2 : takeDigits d2 = (d2 ++ [], []) := by
      have := takeDigits_of_all_digits d2 [] hd2
      simpa [takeDigits] using this
    simp [isDollarAmount, htd, htd2, List.isEmpty_iff, h1, h2]

theorem matchDollarAt_sound (l d1 d2 r3 : List Char)
    (h : matchDollarAt l = some (d1, d2, r3)) :
    l = '$' :: (d1 ++ '.' :: (d2 ++ r3)) ∧ d1 ≠ [] ∧ d2 ≠ [] ∧
      (∀ c ∈ d1, isDigitChar c = true) ∧ (∀ c ∈ d2, isDigitChar c = true) ∧
      (∀ c, r3.head? = some c → isDigitChar c = false) := by
  cases l with
  | nil => simp [matchDollarAt] at h
  | cons c rest =>
    simp only [matchDollarAt] at h
    by_cases hc : (c == '$') = true
    · rw [if_pos hc] at h
      have hc' : c = '$' := by simpa using hc
      subst hc'
      rcases hp : takeDigits rest with ⟨p1, p2⟩
      rw [hp] at h
      dsimp only at h
      by_cases hp1 : p1.isEmpty = true
      · rw [if_pos hp1] at h; cases h
      · rw [if_neg hp1] at h
        by_cases hh : (p2.head? == some '.') = true
        · rw [if_pos hh] at h
          have hh' : p2.head? = some '.' := by simpa using hh
          cases p2 with
          | nil => simp at hh'
          | cons d r2 =>
            have hd : d = '.' := by simpa using hh'
            subst hd
            rw [List.tail_cons] at h
            rcases hq : takeDigits r2 with ⟨q1, q2⟩
            rw [hq] at h
            dsimp only at h
            by_cases hq1 : q1.isEmpty = true
            · rw [if_pos hq1] at h; cases h
            · rw [if_neg hq1] at h
              injection h with h
              obtain ⟨he1, he2, he3⟩ : p1 = d1 ∧ q1 = d2 ∧ q2 = r3 := by
                have h1 := congrArg Prod.fst h
                have h2 := congrArg (fun x => x.2.1) h
                have h3 := congrArg (fun x => x.2.2) h
                exact ⟨h1, h2, h3⟩
              subst he1; subst he2; subst he3
              have hrest : rest = p1 ++ '.' :: r2 := by
                have := takeDigits_append_eq rest
                rw [hp] at this
                exact this
              have hr2 : r2 = q1 ++ q2 := by
                have := takeDigits_append_eq r2
                rw [hq] at this
                exact this
              refine ⟨?_, ?_, ?_, ?_, ?_, ?_⟩
              · rw [hrest, hr2]
              · intro he; rw [he] at hp1; simp at hp1
              · intro he; rw [he] at hq1; simp at hq1
              · intro x hx
                have := takeDigits_all_digits rest
                rw [hp] at this
                exact this x hx
              · intro x hx
                have := takeDigits_all_digits r2
                rw [hq] at this
                exact this x hx
              · intro x hx
                have := takeDigits_rest_head r2
                rw [hq] at this
                exact this x hx
        · rw [if_neg hh] at h; cases h
    · rw [if_neg hc] at h; cases h

theorem matchDollarAt_of_isDollarAmount (w rest : List Char)
    (h : isDollarAmount w = true) :
    ∃ d1 d2 r3, matchDollarAt (w ++ rest) = some (d1, d2, r3) := by
  obtain ⟨d1, d2, rfl, h1, h2, hd1, hd2⟩ := (isDollarAmount_iff w).mp h
  refine ⟨d1, d2 ++ (takeDigits rest).1, (takeDigits rest).2, ?_⟩
  have hshape : ('$' :: (d1 ++ '.' :: d2)) ++ rest = '$' :: (d1 ++ '.' :: (d2 ++ rest)) := by
    simp
  rw [hshape]
  have hdot : ∀ c, ('.' :: (d2 ++ rest)).head? = some c → isDigitChar c = false := by
    intro c hc
    simp at hc
    subst hc
    decide
  have htd : takeDigits (d1 ++ '.' :: (d2 ++ rest)) = (d1, '.' :: (d2 ++ rest)) :=
    takeDigits_exact d1 ('.' :: (d2 ++ rest)) hd1 hdot
  have htd2 : takeDigits (d2 ++ rest) = (d2 ++ (takeDigits rest).1, (takeDigits rest).2) :=
    takeDigits_of_all_digits d2 rest hd2
  have hne1 : d1.isEmpty = false := by simpa [List.isEmpty_iff] using h1
  have hne2 : (d2 ++ (takeDigits rest).1).isEmpty = false := by
    simp [List.isEmpty_iff, h2]
  simp [matchDollarAt, htd, htd2, hne1, hne2]

theorem scanDollar_none_no_match :
    ∀ s : List Char, scanDollar s = none →
      ∀ w, IsSegmentOf w s → isDollarAmount w = false := by
  intro s
  induction s with
  | nil =>
    intro _ w hseg
    obtain ⟨pre, post, hs⟩ := hseg
    have hw : w = [] := by
      rcases List.append_eq_nil.mp hs.symm with ⟨h1, -⟩
      exact (List.append_eq_nil.mp h1).2
    subst hw
    rfl
  | cons c cs ih =>
    intro hnone w hseg
    have hsplit : matchDollarAt (c :: cs) = none ∧ scanDollar cs = none := by
      unfold scanDollar at hnone
      cases hm : matchDollarAt (c :: cs) with
      | some r => rw [hm] at hnone; cases hnone
      | none => rw [hm] at hnone; exact ⟨rfl, hnone⟩
    obtain ⟨hm, hrec⟩ := hsplit
    obtain ⟨pre, post, hs⟩ := hseg
    cases pre with
    | nil =>
      by_contra hda
      have hda' : isDollarAmount w = true := by
        cases hw : isDollarAmount w with
        | true => rfl
        | false => exact absurd hw hda
      obtain ⟨a1, a2, a3, hmt⟩ := matchDollarAt_of_isDollarAmount w post hda'
      have hcs : c :: cs = w ++ post := by simpa using hs
      rw [← hcs] at hmt
      rw [hm] at hmt
      cases hmt
    | cons a pre' =>
      have hcs : cs = pre' ++ w ++ post := by
        have := hs
        simp only [List.cons_append] at this
        injection this with _ h2
      exact ih hrec w ⟨pre', post, hcs⟩

theorem scanDollar_sound :
    ∀ (s d1 d2 r3 : List Char), scanDollar s = some (d1, d2, r3) →
      ∃ pre, s = pre ++ ('$' :: (d1 ++ '.' :: d2)) ++ r3 ∧
        d1 ≠ [] ∧ d2 ≠ [] ∧
        (∀ c ∈ d1, isDigitChar c = true) ∧ (∀ c ∈ d2, isDigitChar c = true) ∧
        (∀ c, r3.head? = some c → isDigitChar c = false) ∧
        (∀ pre2 w2 post2, s = pre2 ++ w2 ++ post2 → isDollarAmount w2 = true →
          pre.length ≤ pre2.length) := by
  intro s
  induction s with
  | nil => intro d1 d2 r3 h; simp [scanDollar] at h
  | cons c cs ih =>
    intro d1 d2 r3 h
    unfold scanDollar at h
    cases hm : matchDollarAt (c :: cs) with
    | some r =>
      rw [hm] at h
      injection h with h
      subst h
      obtain ⟨hshape, h1, h2, hd1, hd2, hr3⟩ := matchDollarAt_sound _ _ _ _ hm
      refine ⟨[], ?_, h1, h2, hd1, hd2, hr3, ?_⟩
      · simpa using hshape
      · intro pre2 w2 post2 _ _
        exact Nat.zero_le _
    | none =>
      rw [hm] at h
      obtain ⟨pre, hs, h1, h2, hd1, hd2, hr3, hmin⟩ := ih d1 d2 r3 h
      refine ⟨c :: pre, ?_, h1, h2, hd1, hd2, hr3, ?_⟩
      · rw [hs]
        simp
      · intro pre2 w2 post2 heq hw2
        cases pre2 with
        | nil =>
          exfalso
          have hcs : c :: cs = w2 ++ post2 := by simpa using heq
          obtain ⟨a1, a2, a3, hmt⟩ := matchDollarAt_of_isDollarAmount w2 post2 hw2
          rw [← hcs] at hmt
          rw [hm] at hmt
          cases hmt
        | cons a pre2' =>
          have hcs : cs = pre2' ++ w2 ++ post2 := by
            have := heq
            simp only [List.cons_append] at this
            injection this with _ h2'
          simpa using Nat.succ_le_succ (hmin pre2' w2 post2 hcs hw2)

theorem parseFloatSigned_no_sign (l : List Char)
    (h : ∀ c, l.head? = some c → c ≠ '-' ∧ c ≠ '+') :
    parseFloatSigned l = parseFloatCore l := by
  cases l with
  | nil => rfl
  | cons a rest =>
    obtain ⟨h1, h2⟩ := h a rfl
    unfold parseFloatSigned
    split
    · next r heq =>
      exfalso
      injection heq with ha
      exact h1 ha
    · next r heq =>
      exfalso
      injection heq with ha
      exact h2 ha
    · rfl

theorem parseFloatCore_group (d1 d2 : List Char) (h1 : d1 ≠ [])
    (hd1 : ∀ c ∈ d1, isDigitChar c = true) (hd2 : ∀ c ∈ d2, isDigitChar c = true) :
    parseFloatCore (d1 ++ '.' :: d2) =
      some ((digitsToNat d1 : ℚ) + (digitsToNat d2 : ℚ) / 10 ^ d2.length) := by
  have hdot : ∀ c, ('.' :: d2).head? = some c → isDigitChar c = false := by
    intro c hc
    simp at hc
    subst hc
    decide
  have htd : takeDigits (d1 ++ '.' :: d2) = (d1, '.' :: d2) :=
    takeDigits_exact d1 ('.' :: d2) hd1 hdot
  have htd2 : takeDigits d2 = (d2 ++ [], []) := by
    simpa [takeDigits] using takeDigits_of_all_digits d2 [] hd2
  cases d1 with
  | nil => exact absurd rfl h1
  | cons a d1' =>
    unfold parseFloatCore
    rw [htd]
    simp [htd2]

theorem jsParseFloat_group (d1 d2 : List Char) (h1 : d1 ≠ [])
    (hd1 : ∀ c ∈ d1, isDigitChar c = true) (hd2 : ∀ c ∈ d2, isDigitChar c = true) :
    jsParseFloat ⟨d1 ++ '.' :: d2⟩ =
      some ((digitsToNat d1 : ℚ) + (digitsToNat d2 : ℚ) / 10 ^ d2.length) := by
  cases d1 with
  | nil => exact absurd rfl h1
  | cons a d1' =>
    have ha : isDigitChar a = true := hd1 a (List.mem_cons_self _ _)
    have hhead : ∀ c, ((a :: d1') ++ '.' :: d2).head? = some c → c = a := by
      intro c hc
      simpa using hc.symm
    have hnws : ((a :: d1') ++ '.' :: d2).dropWhile isJsWhitespace =
        (a :: d1') ++ '.' :: d2 := by
      apply dropWhile_eq_self_of_head
      intro c hc
      rw [hhead c hc]
      exact isDigitChar_not_ws a ha
    show parseFloatSigned (((a :: d1') ++ '.' :: d2).dropWhile isJsWhitespace) = _
    rw [hnws]
    rw [parseFloatSigned_no_sign]
    · exact parseFloatCore_group (a :: d1') d2 (by simp) hd1 hd2
    · intro c hc
      rw [hhead c hc]
      constructor
      · rintro rfl
        exact absurd ha (by decide)
      · rintro rfl
        exact absurd ha (by decide)

/-- Claim C10: `getSubtotal`, `getTax` and `getTotal` each return the
numeric value of the first substring of the label text matching the
dollar-amount pattern `$<digits>.<digits>` (leftmost start, maximal
digit runs), and return 0 when the text contains no such substring. -/
theorem claim_C10_summary_amounts (t : Option String) :
    CheckoutOverviewPage.getTax t = CheckoutOverviewPage.getSubtotal t ∧
    CheckoutOverviewPage.getTotal t = CheckoutOverviewPage.getSubtotal t ∧
    ((∀ w, IsSegmentOf w (BasePage.getText t).data → isDollarAmount w = false) →
      CheckoutOverviewPage.getSubtotal t = some 0) ∧
    (∀ w, IsSegmentOf w (BasePage.getText t).data → isDollarAmount w = true →
      ∃ pre d1 d2 post,
        (BasePage.getText t).data = pre ++ ('$' :: (d1 ++ '.' :: d2)) ++ post ∧
        isDollarAmount ('$' :: (d1 ++ '.' :: d2)) = true ∧
        (∀ pre2 w2 post2, (BasePage.getText t).data = pre2 ++ w2 ++ post2 →
          isDollarAmount w2 = true → pre.length ≤ pre2.length) ∧
        (∀ c, post.head? = some c → isDigitChar c = false) ∧
        CheckoutOverviewPage.getSubtotal t =
          some ((digitsToNat d1 : ℚ) + (digitsToNat d2 : ℚ) / 10 ^ d2.length)) := by
  refine ⟨rfl, rfl, ?_, ?_⟩
  · intro hnone
    cases hscan : scanDollar (BasePage.getText t).data with
    | none => simp [CheckoutOverviewPage.getSubtotal, hscan]
    | some r =>
      exfalso
      obtain ⟨d1, d2, r3⟩ := r
      obtain ⟨pre, hs, h1, h2, hd1, hd2, hr3, hmin⟩ := scanDollar_sound _ _ _ _ hscan
      have hda : isDollarAmount ('$' :: (d1 ++ '.' :: d2)) = true :=
        (isDollarAmount_iff _).mpr ⟨d1, d2, rfl, h1, h2, hd1, hd2⟩
      have hcontra := hnone ('$' :: (d1 ++ '.' :: d2)) ⟨pre, r3, hs⟩
      rw [hda] at hcontra
      cases hcontra
  · intro w hseg hda
    cases hscan : scanDollar (BasePage.getText t).data with
    | none =>
      exfalso
      have hcontra := scanDollar_none_no_match _ hscan w hseg
      rw [hda] at hcontra
      cases hcontra
    | some r =>
      obtain ⟨d1, d2, r3⟩ := r
      obtain ⟨pre, hs, h1, h2, hd1, hd2, hr3, hmin⟩ := scanDollar_sound _ _ _ _ hscan
      refine ⟨pre, d1, d2, r3, hs,
        (isDollarAmount_iff _).mpr ⟨d1, d2, rfl, h1, h2, hd1, hd2⟩, hmin, hr3, ?_⟩
      show (match scanDollar (BasePage.getText t).data with
        | some (d1, d2, _) => jsParseFloat ⟨d1 ++ '.' :: d2⟩
        | none => some 0) = _
      rw [hscan]
      exact jsParseFloat_group d1 d2 h1 hd1 hd2

/-- Witness for claim C10 on the concrete subtotal label text
"Item total: $32.39". -/
theorem claim_C10_witness :
    ∃ pre d1 d2 post,
      (BasePage.getText (some "Item total: $32.39")).data =
        pre ++ ('$' :: (d1 ++ '.' :: d2)) ++ post ∧
      isDollarAmount ('$' :: (d1 ++ '.' :: d2)) = true ∧
      (∀ pre2 w2 post2, (BasePage.getText (some "Item total: $32.39")).data =
        pre2 ++ w2 ++ post2 → isDollarAmount w2 = true → pre.length ≤ pre2.length) ∧
      (∀ c, post.head? = some c → isDigitChar c = false) ∧
      CheckoutOverviewPage.getSubtotal (some "Item total: $32.39") =
        some ((digitsToNat d1 : ℚ) + (digitsToNat d2 : ℚ) / 10 ^ d2.length) :=
  (claim_C10_summary_amounts (some "Item total: $32.39")).2.2.2
    ("$32.39".data)
    ⟨"Item total: ".data, [], by decide⟩
    (by decide)
